import Mathlib

/-!
Verification of the Huffman text compressor (src/huffman.rs).

The model is a shallow embedding of huffman.rs at the byte level:

* a text is a `List Nat` of Unicode codepoints (Rust `char`s);
* a file is a `List Nat` of bytes;
* `Option` models Rust panics: every `none` produced by `encodeFile` /
  `decodeFile` corresponds to a panic in the Rust source (`unwrap` on
  `None`/`Err`, out-of-range slice, non-char-boundary `split_at`).  The
  file-system I/O layer (`File::open` etc.) is outside the model, so no
  `none` stands for an I/O error.

Rust loops are modelled by fuel-indexed structural recursion with fuel
chosen large enough that exhaustion is unreachable; this keeps every
definition kernel-computable.  Iteration order of `hashbrown::HashMap`
and the tie order of `BinaryHeap` are unspecified in the source; the
model fixes them deterministically (first-occurrence order for maps,
leftmost minimum and push-at-end for the heap).
-/

namespace Huffman

/-- The tree type from huffman.rs: `Char(char)` or `Node(left, right)`. -/
inductive HuffmanTree where
  | Char (c : Nat)
  | Node (l r : HuffmanTree)
deriving DecidableEq

/-- `HuffmanWeight`: a tree together with its weight; ordering is by weight only. -/
structure HuffmanWeight where
  tree : HuffmanTree
  weight : Nat
deriving DecidableEq

/-- `nb_occ`'s per-character update: increment the count of `c`, or append
`(c, 1)` if absent (first-occurrence order determinizes HashMap iteration). -/
def bumpOcc : List (Nat × Nat) → Nat → List (Nat × Nat)
  | [], c => [(c, 1)]
  | (d, k) :: rest, c => if d = c then (d, k + 1) :: rest else (d, k) :: bumpOcc rest c

/-- `nb_occ`: frequency table of a text, as an association list. -/
def nbOcc (s : List Nat) : List (Nat × Nat) := s.foldl bumpOcc []

/-- Pop a minimum-weight element (leftmost among ties) from the heap list;
models `BinaryHeap<Reverse<_>>::pop`. -/
def popMin : List HuffmanWeight → Option (HuffmanWeight × List HuffmanWeight)
  | [] => none
  | x :: rest =>
    match popMin rest with
    | none => some (x, [])
    | some (m, rest') =>
      if x.weight ≤ m.weight then some (x, rest) else some (m, x :: rest')

/-- The `while heap.len() > 1` merge loop of `make_huffman_tree`; each round
pops the two lightest trees and pushes their `Node` combination. -/
def huffLoop : Nat → List HuffmanWeight → List HuffmanWeight
  | 0, l => l
  | fuel + 1, l =>
    if l.length ≤ 1 then l
    else
      match popMin l with
      | none => l
      | some (t1, l1) =>
        match popMin l1 with
        | none => l
        | some (t2, l2) =>
          huffLoop fuel (l2 ++ [⟨HuffmanTree.Node t1.tree t2.tree, t1.weight + t2.weight⟩])

/-- `make_huffman_tree`; `none` models the `heap.pop().unwrap()` panic on an
empty frequency table. -/
def makeHuffmanTree (freq : List (Nat × Nat)) : Option HuffmanTree :=
  match huffLoop freq.length (freq.map fun e => ⟨HuffmanTree.Char e.1, e.2⟩) with
  | [x] => some x.tree
  | _ => none

/-- `HashMap::insert` on the code table: replace in place or append. -/
def insertCode : List (Nat × List Bool) → Nat → List Bool → List (Nat × List Bool)
  | [], c, v => [(c, v)]
  | (d, w) :: rest, c, v =>
    if d = c then (d, v) :: rest else (d, w) :: insertCode rest c v

/-- Number of nodes of a tree (fuel for the traversal worklist). -/
def hmSize : HuffmanTree → Nat
  | .Char _ => 1
  | .Node l r => hmSize l + hmSize r + 1

/-- The stack-driven traversal loop of `make_huffman_map`: pop `(tree, code)`;
a leaf records its code, a node pushes `(left, code+[false])` then
`(right, code+[true])` (so the right child is processed first). -/
def mhmLoop : Nat → List (HuffmanTree × List Bool) → List (Nat × List Bool) →
    List (Nat × List Bool)
  | 0, _, m => m
  | _ + 1, [], m => m
  | fuel + 1, (t, code) :: stack, m =>
    match t with
    | .Char c => mhmLoop fuel stack (insertCode m c code)
    | .Node t1 t2 =>
      mhmLoop fuel ((t2, code ++ [true]) :: (t1, code ++ [false]) :: stack) m

/-- Total node count of a worklist (exact iteration count of `mhmLoop`). -/
def stackSize (stack : List (HuffmanTree × List Bool)) : Nat :=
  (stack.map fun e => hmSize e.1).sum

/-- `make_huffman_map`. -/
def makeHuffmanMap (t : HuffmanTree) : List (Nat × List Bool) :=
  mhmLoop (hmSize t) [(t, [])] []

/-- `bit_vec_to_string`: bits as the bytes of a '0'/'1' string. -/
def bitChars (v : List Bool) : List Nat := v.map fun b => cond b 49 48

/-- `string_to_bit_vec`; `none` models the `panic!()` on a byte that is
neither '0' nor '1'. -/
def stringToBitVec : List Nat → Option (List Bool)
  | [] => some []
  | b :: rest =>
    if b = 48 then (stringToBitVec rest).map (false :: ·)
    else if b = 49 then (stringToBitVec rest).map (true :: ·)
    else none

/-- The 8-step division loop of `byte_to_bit_vec`. -/
def byteToBitVecGo : Nat → Nat → Nat → List Bool
  | 0, _, _ => []
  | k + 1, r, n => decide (r / n = 1) :: byteToBitVecGo k (r % n) (n / 2)

/-- `byte_to_bit_vec`: the 8 bits of a byte, most significant first. -/
def byteToBitVec (b : Nat) : List Bool := byteToBitVecGo 8 b 128

/-- Flatten bytes to bits (the `payload.iter().for_each` unpacking loop). -/
def bytesToBits : List Nat → List Bool
  | [] => []
  | b :: rest => byteToBitVec b ++ bytesToBits rest

/-- Value of one 8-bit chunk, first bit most significant: the inner
`for i in (0..8).rev()` accumulation of `encode_file`. -/
def bitsToByte : List Bool → Nat
  | [] => 0
  | b :: rest => cond b (2 ^ rest.length) 0 + bitsToByte rest

/-- `chunks(8)` with fuel (fuel = list length suffices). -/
def chunks8Go : Nat → List Bool → List (List Bool)
  | 0, _ => []
  | _ + 1, [] => []
  | fuel + 1, l => l.take 8 :: chunks8Go fuel (l.drop 8)

/-- `chunks(8)` on a bit list. -/
def chunks8 (l : List Bool) : List (List Bool) := chunks8Go l.length l

/-- The byte-packing step of `encode_file`. -/
def packBits (bits : List Bool) : List Nat := (chunks8 bits).map bitsToByte

/-- The `for _ in 1..(9 - bytes.len() % 8)` padding loop: appends
`8 - len % 8` zero bits (8 of them when the length is already aligned). -/
def padBits (bits : List Bool) : List Bool :=
  bits ++ List.replicate (8 - bits.length % 8) false

/-- UTF-8 encoding of a codepoint (how `format!("{}", c)` renders a char). -/
def utf8Encode (c : Nat) : List Nat :=
  if c < 128 then [c]
  else if c < 2048 then [192 + c / 64, 128 + c % 64]
  else if c < 65536 then [224 + c / 4096, 128 + c / 64 % 64, 128 + c % 64]
  else [240 + c / 262144, 128 + c / 4096 % 64, 128 + c / 64 % 64, 128 + c % 64]

/-- One code-table line of the output file: `format!("{} {}", c, bits)`. -/
def entryLine (c : Nat) (v : List Bool) : List Nat := utf8Encode c ++ 32 :: bitChars v

/-- Decimal digits (as ASCII bytes) of `n`, via fueled division. -/
def natToDecimalGo : Nat → Nat → List Nat
  | 0, _ => []
  | fuel + 1, n =>
    if n < 10 then [48 + n] else natToDecimalGo fuel (n / 10) ++ [48 + n % 10]

/-- Decimal rendering of a natural number (`format!("{}", n)`). -/
def natToDecimal (n : Nat) : List Nat := natToDecimalGo (n + 1) n

/-- All lines written by `encode_file` before the packed payload:
the `"<chars> <distinct>"` header then one `entryLine` per map entry. -/
def headerLines (n : Nat) (m : List (Nat × List Bool)) : List (List Nat) :=
  (natToDecimal n ++ 32 :: natToDecimal m.length) :: m.map fun e => entryLine e.1 e.2

/-- `Vec::join("\n")` on byte lines. -/
def joinLines : List (List Nat) → List Nat
  | [] => []
  | [l] => l
  | l :: ls => l ++ 10 :: joinLines ls

/-- Concatenate the codes of a text (`contents.chars().for_each` in
`encode_file`); `none` models the `map.get(&c).unwrap()` panic. -/
def lookupCode : List (Nat × List Bool) → Nat → Option (List Bool)
  | [], _ => none
  | (d, w) :: rest, c => if d = c then some w else lookupCode rest c

def concatCodes (m : List (Nat × List Bool)) : List Nat → Option (List Bool)
  | [] => some []
  | c :: rest =>
    match lookupCode m c, concatCodes m rest with
    | some v, some vs => some (v ++ vs)
    | _, _ => none

/-- `encode_file`, from in-memory text to the produced file bytes.
The file is `join("\n")` of the header lines, a trailing newline from
`writeln!`, then the packed payload bytes. -/
def encodeFile (text : List Nat) : Option (List Nat) :=
  match makeHuffmanTree (nbOcc text) with
  | none => none
  | some tree =>
    let m := makeHuffmanMap tree
    match concatCodes m text with
    | none => none
    | some bits =>
      some (joinLines (headerLines text.length m) ++ 10 :: packBits (padBits bits))

/-- `String::split('\n')` at the byte level. -/
def splitOnByte : List Nat → List (List Nat)
  | [] => [[]]
  | b :: rest =>
    if b = 10 then [] :: splitOnByte rest
    else
      match splitOnByte rest with
      | [] => [[b]]
      | l :: ls => (b :: l) :: ls

/-- `str::split_once(' ')`: split at the first space; `none` models the
`unwrap` panic when there is no space. -/
def splitOnceSpace : List Nat → Option (List Nat × List Nat)
  | [] => none
  | b :: rest =>
    if b = 32 then some ([], rest)
    else
      match splitOnceSpace rest with
      | none => none
      | some (x, y) => some (b :: x, y)

/-- ASCII whitespace test used by `str::trim` on the byte strings at hand. -/
def isWSByte (b : Nat) : Bool := b = 32 || (9 ≤ b && b ≤ 13)

/-- `str::trim` (the code strings it is applied to are ASCII). -/
def trimBytes (l : List Nat) : List Nat :=
  ((l.dropWhile isWSByte).reverse.dropWhile isWSByte).reverse

def isDigitByte (b : Nat) : Bool := 48 ≤ b && b ≤ 57

/-- Accumulating decimal parse. -/
def parseNatGo : Nat → List Nat → Option Nat
  | acc, [] => some acc
  | acc, b :: rest =>
    if isDigitByte b then parseNatGo (acc * 10 + (b - 48)) rest else none

/-- `str::parse::<u32>()`: fails on an empty string, a non-digit byte, or a
value outside `u32` range.  (Rust also accepts a leading `+`, which never
occurs in files written by `encode_file`.) -/
def parseU32 (l : List Nat) : Option Nat :=
  match l with
  | [] => none
  | _ =>
    match parseNatGo 0 l with
    | none => none
    | some v => if v < 2 ^ 32 then some v else none

/-- Decode the first UTF-8 character of a byte string
(`str::chars().nth(0)`); `none` models a panic / empty or invalid input. -/
def utf8DecodeFirst : List Nat → Option Nat
  | [] => none
  | b :: rest =>
    if b < 128 then some b
    else if b < 192 then none
    else if b < 224 then
      match rest with
      | b1 :: _ =>
        if 128 ≤ b1 && b1 < 192 then some ((b - 192) * 64 + (b1 - 128)) else none
      | [] => none
    else if b < 240 then
      match rest with
      | b1 :: b2 :: _ =>
        if (128 ≤ b1 && b1 < 192) && (128 ≤ b2 && b2 < 192) then
          some ((b - 224) * 4096 + (b1 - 128) * 64 + (b2 - 128))
        else none
      | _ => none
    else
      match rest with
      | b1 :: b2 :: b3 :: _ =>
        if ((128 ≤ b1 && b1 < 192) && (128 ≤ b2 && b2 < 192)) && (128 ≤ b3 && b3 < 192) then
          some ((b - 240) * 262144 + (b1 - 128) * 4096 + (b2 - 128) * 64 + (b3 - 128))
        else none
      | _ => none

/-- Is a byte a UTF-8 continuation byte? -/
def isContinuation (b : Nat) : Bool := 128 ≤ b && b < 192

/-- `str::split_at(2)`: `none` models the panic when the string is shorter
than 2 bytes or byte index 2 is not a character boundary. -/
def splitAt2 (l : List Nat) : Option (List Nat × List Nat) :=
  if l.length < 2 then none
  else
    match l[2]? with
    | some b => if isContinuation b then none else some (l.take 2, l.drop 2)
    | none => some (l.take 2, l.drop 2)

/-- `usize::MAX`, initial value of `min_vec_length`. -/
def UMAX : Nat := 2 ^ 64 - 1

/-- `HashMap::insert` on the inverse table (bit pattern to symbol). -/
def insertInv : List (List Bool × Nat) → List Bool → Nat → List (List Bool × Nat)
  | [], v, c => [(v, c)]
  | (w, d) :: rest, v, c =>
    if w = v then (w, c) :: rest else (w, d) :: insertInv rest v c

/-- The code-table parsing loop of `decode_file`, consuming one line per
entry (two lines for the empty-line pattern produced by a `'\n'` symbol).
Returns the inverse map, the minimum code length seen, and the unconsumed
lines.  `none` models a panic: missing line, invalid bit string (the
`panic!()` in `string_to_bit_vec`), or `split_at(2)` off a char boundary. -/
def parseTable : Nat → List (List Nat) → Nat → List (List Bool × Nat) →
    Option (List (List Bool × Nat) × Nat × List (List Nat))
  | 0, rest, minLen, m => some (m, minLen, rest)
  | _ + 1, [], _, _ => none
  | k + 1, line :: rest, minLen, m =>
    if line = [] then
      match rest with
      | [] => none
      | line2 :: rest2 =>
        match stringToBitVec (trimBytes line2) with
        | none => none
        | some v => parseTable k rest2 (min minLen v.length) (insertInv m v 10)
    else
      match utf8DecodeFirst line, splitAt2 line with
      | some c, some cs =>
        match stringToBitVec (trimBytes cs.2) with
        | none => none
        | some v => parseTable k rest (min minLen v.length) (insertInv m v c)
      | _, _ => none

/-- Lookup in the inverse table (`map.get(chunk)`). -/
def lookupInv : List (List Bool × Nat) → List Bool → Option Nat
  | [], _ => none
  | (w, d) :: rest, v => if w = v then some d else lookupInv rest v

/-- The bit-scanning loop of `decode_file`: grow a window from `start` until
it matches a code, emit the symbol, advance, reset the window to `minLen`;
stop once `cnt` symbols are out or the whole bit sequence is consumed.
`none` at the in-loop check models the `&code[start..start + length]`
out-of-range panic; fuel exhaustion is unreachable for the fuel chosen in
`decodeFile` (the window branch runs at most `code.length + 2` times per
emitted symbol). -/
def scanLoop : Nat → List (List Bool × Nat) → List Bool → Nat → Nat → Nat → Nat → Nat →
    List Nat → Option (List Nat)
  | 0, _, _, _, _, _, _, _, _ => none
  | fuel + 1, inv, code, cnt, minLen, start, len, l, out =>
    if start < code.length ∧ l < cnt then
      if code.length < start + len then none
      else
        match lookupInv inv ((code.drop start).take len) with
        | none => scanLoop fuel inv code cnt minLen start (len + 1) l out
        | some c => scanLoop fuel inv code cnt minLen (start + len) minLen (l + 1) (out ++ [c])
    else some out

/-- `decode_file`, from file bytes to the decoded text (the characters
written to the output file). -/
def decodeFile (file : List Nat) : Option (List Nat) :=
  match splitOnByte file with
  | [] => none
  | l0 :: rest =>
    match splitOnceSpace l0 with
    | none => none
    | some s =>
      match parseU32 s.1, parseU32 s.2 with
      | some charsCount, some distinctCount =>
        match parseTable distinctCount rest UMAX [] with
        | none => none
        | some (inv, minLen, remaining) =>
          let code := bytesToBits (joinLines remaining)
          scanLoop ((charsCount + 1) * (code.length + 3)) inv code charsCount minLen 0 minLen 0 []
      | _, _ => none

/-! ### Splitting and joining on the newline byte -/

theorem splitOnByte_ne_nil (l : List Nat) : splitOnByte l ≠ [] := by
  induction l with
  | nil => simp [splitOnByte]
  | cons b rest ih =>
    simp only [splitOnByte]
    split
    · simp
    · cases h : splitOnByte rest with
      | nil => simp
      | cons x xs => simp

theorem splitOnByte_append (a b : List Nat) :
    splitOnByte (a ++ 10 :: b) = splitOnByte a ++ splitOnByte b := by
  induction a with
  | nil => simp [splitOnByte]
  | cons x xs ih =>
    by_cases hx : x = 10
    · subst hx
      simp [splitOnByte, ih]
    · simp only [List.cons_append, splitOnByte, if_neg hx, ih]
      cases h : splitOnByte xs with
      | nil => exact absurd h (splitOnByte_ne_nil xs)
      | cons y ys => rw [List.append_eq, ih, h]; simp

theorem splitOnByte_no10 (l : List Nat) (h : ∀ x ∈ l, x ≠ 10) : splitOnByte l = [l] := by
  induction l with
  | nil => simp [splitOnByte]
  | cons b rest ih =>
    have hb : b ≠ 10 := h b (by simp)
    have hrest := ih fun x hx => h x (by simp [hx])
    simp [splitOnByte, hb, hrest]

theorem joinLines_splitOnByte (l : List Nat) : joinLines (splitOnByte l) = l := by
  induction l with
  | nil => simp [splitOnByte, joinLines]
  | cons b rest ih =>
    by_cases hb : b = 10
    · subst hb
      simp only [splitOnByte, if_pos rfl]
      cases h : splitOnByte rest with
      | nil => exact absurd h (splitOnByte_ne_nil rest)
      | cons x xs =>
        rw [h] at ih
        simp [joinLines, ih]
    · simp only [splitOnByte, if_neg hb]
      cases h : splitOnByte rest with
      | nil => exact absurd h (splitOnByte_ne_nil rest)
      | cons x xs =>
        rw [h] at ih
        cases xs with
        | nil => simpa [joinLines] using congrArg (b :: ·) ih
        | cons y ys => simpa [joinLines] using congrArg (b :: ·) ih

theorem joinLines_cons_cons (x y : List Nat) (ls : List (List Nat)) :
    joinLines (x :: y :: ls) = x ++ 10 :: joinLines (y :: ls) := rfl

/-- Splitting the whole encoded file: the joined header lines followed by a
newline and the payload split into the lines themselves (each further split)
followed by the split payload. -/
theorem splitOnByte_joinLines_append (L : List (List Nat)) (p : List Nat) (hL : L ≠ []) :
    splitOnByte (joinLines L ++ 10 :: p) =
      (L.map splitOnByte).flatten ++ splitOnByte p := by
  induction L with
  | nil => exact absurd rfl hL
  | cons x ls ih =>
    cases ls with
    | nil => simp [joinLines, splitOnByte_append]
    | cons y ys =>
      rw [joinLines_cons_cons, List.append_assoc, List.cons_append, splitOnByte_append,
        ih (by simp)]
      simp

/-! ### split_once on space -/

theorem splitOnceSpace_append (a b : List Nat) (h : ∀ x ∈ a, x ≠ 32) :
    splitOnceSpace (a ++ 32 :: b) = some (a, b) := by
  induction a with
  | nil => simp [splitOnceSpace]
  | cons x xs ih =>
    have hx : x ≠ 32 := h x (by simp)
    have hxs := ih fun y hy => h y (by simp [hy])
    simp [splitOnceSpace, hx, hxs]

/-! ### trim and bit strings -/

theorem dropWhile_of_head_false {p : Nat → Bool} (l : List Nat)
    (h : ∀ x ∈ l.head?, p x = false) : l.dropWhile p = l := by
  cases l with
  | nil => rfl
  | cons x xs => simp [List.dropWhile, h x rfl]

theorem trimBytes_clean (l : List Nat) (h : ∀ x ∈ l, isWSByte x = false) :
    trimBytes l = l := by
  have h1 : l.dropWhile isWSByte = l :=
    dropWhile_of_head_false l fun x hx => h x (List.mem_of_mem_head? hx)
  have h2 : l.reverse.dropWhile isWSByte = l.reverse :=
    dropWhile_of_head_false l.reverse fun x hx =>
      h x (List.mem_reverse.mp (List.mem_of_mem_head? hx))
  unfold trimBytes
  rw [h1, h2, List.reverse_reverse]

theorem trimBytes_cons_space (l : List Nat) (h : ∀ x ∈ l, isWSByte x = false) :
    trimBytes (32 :: l) = l := by
  unfold trimBytes
  have h32 : isWSByte 32 = true := by decide
  rw [List.dropWhile_cons_of_pos h32]
  have h1 : l.dropWhile isWSByte = l :=
    dropWhile_of_head_false l fun x hx => h x (List.mem_of_mem_head? hx)
  have h2 : l.reverse.dropWhile isWSByte = l.reverse :=
    dropWhile_of_head_false l.reverse fun x hx =>
      h x (List.mem_reverse.mp (List.mem_of_mem_head? hx))
  rw [h1, h2, List.reverse_reverse]

theorem bitChars_no_ws (v : List Bool) : ∀ x ∈ bitChars v, isWSByte x = false := by
  intro x hx
  simp only [bitChars, List.mem_map] at hx
  obtain ⟨b, _, rfl⟩ := hx
  cases b <;> decide

theorem bitChars_no10 (v : List Bool) : ∀ x ∈ bitChars v, x ≠ 10 := by
  intro x hx
  simp only [bitChars, List.mem_map] at hx
  obtain ⟨b, _, rfl⟩ := hx
  cases b <;> decide

theorem stringToBitVec_bitChars (v : List Bool) : stringToBitVec (bitChars v) = some v := by
  induction v with
  | nil => simp [bitChars, stringToBitVec]
  | cons b rest ih =>
    cases b <;> simp [bitChars, stringToBitVec] at ih ⊢ <;> simp [ih]

/-! ### Decimal rendering and parsing -/

theorem natToDecimalGo_digits (fuel n : Nat) :
    ∀ b ∈ natToDecimalGo fuel n, 48 ≤ b ∧ b ≤ 57 := by
  induction fuel generalizing n with
  | zero => simp [natToDecimalGo]
  | succ fuel ih =>
    intro b hb
    simp only [natToDecimalGo] at hb
    split at hb
    · simp at hb
      omega
    · rw [List.mem_append] at hb
      rcases hb with hb | hb
      · exact ih _ b hb
      · simp at hb
        have := Nat.mod_lt n (show 0 < 10 by norm_num)
        omega

theorem natToDecimal_digits (n : Nat) : ∀ b ∈ natToDecimal n, 48 ≤ b ∧ b ≤ 57 :=
  natToDecimalGo_digits (n + 1) n

theorem natToDecimalGo_ne_nil (fuel n : Nat) (h : 0 < fuel) : natToDecimalGo fuel n ≠ [] := by
  cases fuel with
  | zero => omega
  | succ fuel =>
    simp only [natToDecimalGo]
    split
    · simp
    · simp

theorem natToDecimal_ne_nil (n : Nat) : natToDecimal n ≠ [] :=
  natToDecimalGo_ne_nil (n + 1) n (Nat.succ_pos n)

theorem parseNatGo_append (acc : Nat) (l₁ l₂ : List Nat) :
    parseNatGo acc (l₁ ++ l₂) =
      match parseNatGo acc l₁ with
      | some a => parseNatGo a l₂
      | none => none := by
  induction l₁ generalizing acc with
  | nil => simp [parseNatGo]
  | cons b rest ih =>
    simp only [List.cons_append, parseNatGo]
    split
    · exact ih _
    · rfl

theorem parseNatGo_natToDecimalGo (fuel : Nat) :
    ∀ n acc, n < 10 ^ fuel →
      parseNatGo acc (natToDecimalGo fuel n) =
        some (acc * 10 ^ (natToDecimalGo fuel n).length + n) := by
  induction fuel with
  | zero =>
    intro n acc h
    have : n = 0 := by simpa using h
    subst this
    simp [natToDecimalGo, parseNatGo]
  | succ fuel ih =>
    intro n acc h
    simp only [natToDecimalGo]
    split
    · rename_i h10
      have : isDigitByte (48 + n) = true := by
        simp [isDigitByte]
        omega
      simp [parseNatGo, this]
    · rename_i h10
      rw [parseNatGo_append]
      have hdiv : n / 10 < 10 ^ fuel := by
        rw [Nat.div_lt_iff_lt_mul (by norm_num)]
        calc n < 10 ^ (fuel + 1) := h
        _ = 10 ^ fuel * 10 := by ring
      rw [ih (n / 10) acc hdiv]
      have hd : isDigitByte (48 + n % 10) = true := by
        have := Nat.mod_lt n (show 0 < 10 by norm_num)
        simp [isDigitByte]
        omega
      simp [parseNatGo, hd]
      have hmod := Nat.div_add_mod n 10
      ring_nf
      omega

theorem parseU32_natToDecimal (n : Nat) (h : n < 2 ^ 32) :
    parseU32 (natToDecimal n) = some n := by
  have hne := natToDecimal_ne_nil n
  have hlt : n < 10 ^ (n + 1) := by
    calc n < 10 ^ n := Nat.lt_pow_self (by norm_num) n
    _ ≤ 10 ^ (n + 1) := Nat.pow_le_pow_right (by norm_num) (Nat.le_succ n)
  have hp : parseNatGo 0 (natToDecimal n) = some n := by
    have := parseNatGo_natToDecimalGo (n + 1) n 0 hlt
    simpa [natToDecimal] using this
  unfold parseU32
  cases hd : natToDecimal n with
  | nil => exact absurd hd hne
  | cons x xs =>
    rw [hd] at hp
    simp only [hp]
    split
    · rfl
    · omega

theorem natToDecimal_no32 (n : Nat) : ∀ x ∈ natToDecimal n, x ≠ 32 := by
  intro x hx
  have := natToDecimal_digits n x hx
  omega

theorem natToDecimal_no10 (n : Nat) : ∀ x ∈ natToDecimal n, x ≠ 10 := by
  intro x hx
  have := natToDecimal_digits n x hx
  omega

/-! ### Bit packing and unpacking -/

theorem byteToBitVec_bitsToByte (a b c d e f g h : Bool) :
    byteToBitVec (bitsToByte [a, b, c, d, e, f, g, h]) = [a, b, c, d, e, f, g, h] := by
  cases a <;> cases b <;> cases c <;> cases d <;>
    cases e <;> cases f <;> cases g <;> cases h <;> decide

theorem chunks8Go_nil (fuel : Nat) : chunks8Go fuel [] = [] := by
  cases fuel <;> rfl

theorem chunks8Go_fuel (fuel₁ : Nat) :
    ∀ fuel₂ l, l.length ≤ fuel₁ → l.length ≤ fuel₂ →
      chunks8Go fuel₁ l = chunks8Go fuel₂ l := by
  induction fuel₁ with
  | zero =>
    intro fuel₂ l h1 _
    have : l = [] := List.eq_nil_of_length_eq_zero (Nat.le_zero.mp h1)
    subst this
    rw [chunks8Go_nil, chunks8Go_nil]
  | succ fuel₁ ih =>
    intro fuel₂ l h1 h2
    cases l with
    | nil => rw [chunks8Go_nil, chunks8Go_nil]
    | cons x xs =>
      cases fuel₂ with
      | zero => simp at h2
      | succ fuel₂ =>
        show (x :: xs).take 8 :: chunks8Go fuel₁ ((x :: xs).drop 8) =
          (x :: xs).take 8 :: chunks8Go fuel₂ ((x :: xs).drop 8)
        have hlen : ((x :: xs).drop 8).length = (x :: xs).length - 8 := by simp
        rw [ih fuel₂ _ (by omega) (by omega)]

theorem chunks8_cons8 (a b c d e f g h : Bool) (rest : List Bool) :
    chunks8 (a :: b :: c :: d :: e :: f :: g :: h :: rest) =
      [a, b, c, d, e, f, g, h] :: chunks8 rest := by
  unfold chunks8
  have hlen : (a :: b :: c :: d :: e :: f :: g :: h :: rest).length = rest.length + 8 := by
    simp
  rw [hlen]
  show (a :: b :: c :: d :: e :: f :: g :: h :: rest).take 8 ::
      chunks8Go (rest.length + 7) ((a :: b :: c :: d :: e :: f :: g :: h :: rest).drop 8) =
    [a, b, c, d, e, f, g, h] :: chunks8Go rest.length rest
  have ht : (a :: b :: c :: d :: e :: f :: g :: h :: rest).take 8 =
      [a, b, c, d, e, f, g, h] := by simp
  have hd : (a :: b :: c :: d :: e :: f :: g :: h :: rest).drop 8 = rest := by simp
  rw [ht, hd, chunks8Go_fuel (rest.length + 7) rest.length rest (by omega) (by omega)]

theorem unpack_pack_aux (n : Nat) :
    ∀ l : List Bool, l.length = 8 * n → bytesToBits (packBits l) = l := by
  induction n with
  | zero =>
    intro l h
    have : l = [] := List.eq_nil_of_length_eq_zero (by omega)
    subst this
    simp [packBits, chunks8, chunks8Go_nil, bytesToBits]
  | succ n ih =>
    intro l h
    match l, h with
    | a :: b :: c :: d :: e :: f :: g :: hh :: rest, h =>
      have hrest : rest.length = 8 * n := by
        simp at h
        omega
      rw [packBits, chunks8_cons8]
      simp only [List.map_cons]
      show bytesToBits (bitsToByte [a, b, c, d, e, f, g, hh] :: (chunks8 rest).map bitsToByte) =
        _
      rw [bytesToBits, byteToBitVec_bitsToByte]
      have := ih rest hrest
      rw [packBits] at this
      rw [this]
      simp

/-- Unpacking after packing restores any bit sequence of aligned length. -/
theorem unpack_pack (l : List Bool) (h : l.length % 8 = 0) :
    bytesToBits (packBits l) = l :=
  unpack_pack_aux (l.length / 8) l (by omega)

theorem chunks8_length (n : Nat) :
    ∀ l : List Bool, l.length = 8 * n → (chunks8 l).length = n := by
  induction n with
  | zero =>
    intro l h
    have : l = [] := List.eq_nil_of_length_eq_zero (by omega)
    subst this
    simp [chunks8, chunks8Go_nil]
  | succ n ih =>
    intro l h
    match l, h with
    | a :: b :: c :: d :: e :: f :: g :: hh :: rest, h =>
      have hrest : rest.length = 8 * n := by
        simp at h
        omega
      rw [chunks8_cons8]
      simp [ih rest hrest]

theorem padBits_length (bits : List Bool) :
    (padBits bits).length = bits.length + (8 - bits.length % 8) := by
  simp [padBits]

theorem padBits_aligned (bits : List Bool) :
    (padBits bits).length = 8 * (bits.length / 8 + 1) := by
  rw [padBits_length]
  have h1 := Nat.mod_add_div bits.length 8
  have h2 : bits.length % 8 < 8 := Nat.mod_lt _ (by norm_num)
  omega

theorem packBits_padBits_length (bits : List Bool) :
    (packBits (padBits bits)).length = bits.length / 8 + 1 := by
  rw [packBits, List.length_map, chunks8_length (bits.length / 8 + 1) _ (padBits_aligned bits)]

/-! ### Characterizations of the tree traversal -/

/-- Leaf characters of a tree, in the order the traversal of
`make_huffman_map` reaches them (right subtree first). -/
def treeChars : HuffmanTree → List Nat
  | .Char c => [c]
  | .Node t1 t2 => treeChars t2 ++ treeChars t1

/-- Root-to-leaf paths of a tree (left = false, right = true), in traversal
order. -/
def treePaths : HuffmanTree → List (Nat × List Bool)
  | .Char c => [(c, [])]
  | .Node t1 t2 =>
    (treePaths t2).map (fun e => (e.1, true :: e.2)) ++
      (treePaths t1).map (fun e => (e.1, false :: e.2))

/-- Recursive form of the worklist traversal: fully process the right
subtree, then the left one. -/
def dfsInsert : HuffmanTree → List Bool → List (Nat × List Bool) → List (Nat × List Bool)
  | .Char c, p, m => insertCode m c p
  | .Node t1 t2, p, m => dfsInsert t1 (p ++ [false]) (dfsInsert t2 (p ++ [true]) m)

theorem hmSize_pos (t : HuffmanTree) : 1 ≤ hmSize t := by
  cases t <;> simp [hmSize]

theorem treePaths_fst (t : HuffmanTree) : (treePaths t).map Prod.fst = treeChars t := by
  induction t with
  | Char c => rfl
  | Node t1 t2 ih1 ih2 =>
    simp only [treePaths, treeChars, List.map_append, List.map_map]
    rw [← ih1, ← ih2]
    congr 1 <;> (apply List.map_congr_left; intro e _; rfl)

theorem insertCode_append (m : List (Nat × List Bool)) (c : Nat) (v : List Bool)
    (h : c ∉ m.map Prod.fst) : insertCode m c v = m ++ [(c, v)] := by
  induction m with
  | nil => rfl
  | cons e rest ih =>
    obtain ⟨d, w⟩ := e
    simp only [List.map_cons, List.mem_cons, not_or] at h
    simp [insertCode, Ne.symm h.1, ih h.2]

theorem dfsInsert_spec (t : HuffmanTree) :
    ∀ (p : List Bool) (m : List (Nat × List Bool)), (treeChars t).Nodup →
      (∀ c ∈ treeChars t, c ∉ m.map Prod.fst) →
      dfsInsert t p m = m ++ (treePaths t).map fun e => (e.1, p ++ e.2) := by
  induction t with
  | Char c =>
    intro p m _ hfresh
    simp [dfsInsert, treePaths, insertCode_append m c p (hfresh c (by simp [treeChars]))]
  | Node t1 t2 ih1 ih2 =>
    intro p m hnd hfresh
    simp only [treeChars, List.nodup_append] at hnd
    obtain ⟨hnd2, hnd1, hdisj⟩ := hnd
    have hf2 : ∀ c ∈ treeChars t2, c ∉ m.map Prod.fst := fun c hc =>
      hfresh c (by simp [treeChars, hc])
    have step2 := ih2 (p ++ [true]) m hnd2 hf2
    simp only [dfsInsert, step2]
    have hf1 : ∀ c ∈ treeChars t1, c ∉
        (m ++ (treePaths t2).map fun e => (e.1, (p ++ [true]) ++ e.2)).map Prod.fst := by
      intro c hc
      simp only [List.map_append, List.mem_append, List.map_map]
      rintro (hm | hm)
      · exact hfresh c (by simp [treeChars, hc]) hm
      · have : c ∈ (treePaths t2).map Prod.fst := by
          simpa [Function.comp] using hm
        rw [treePaths_fst] at this
        exact hdisj this hc
    rw [ih1 (p ++ [false]) _ hnd1 hf1]
    simp only [treePaths, List.map_append, List.map_map, List.append_assoc]
    congr 2 <;> (apply List.map_congr_left; intro e _; simp)

theorem stackSize_cons (t : HuffmanTree) (code : List Bool)
    (stack : List (HuffmanTree × List Bool)) :
    stackSize ((t, code) :: stack) = hmSize t + stackSize stack := by
  simp [stackSize]

theorem mhmLoop_foldl (fuel : Nat) :
    ∀ (stack : List (HuffmanTree × List Bool)) (m : List (Nat × List Bool)),
      stackSize stack ≤ fuel →
      mhmLoop fuel stack m = stack.foldl (fun m e => dfsInsert e.1 e.2 m) m := by
  induction fuel with
  | zero =>
    intro stack m h
    cases stack with
    | nil => rfl
    | cons e rest =>
      obtain ⟨t, code⟩ := e
      rw [stackSize_cons] at h
      have := hmSize_pos t
      omega
  | succ fuel ih =>
    intro stack m h
    cases stack with
    | nil => rfl
    | cons e rest =>
      obtain ⟨t, code⟩ := e
      cases t with
      | Char c =>
        rw [stackSize_cons] at h
        show mhmLoop fuel rest (insertCode m c code) = _
        rw [ih rest _ (by simp [hmSize] at h; omega)]
        rfl
      | Node t1 t2 =>
        rw [stackSize_cons] at h
        show mhmLoop fuel ((t2, code ++ [true]) :: (t1, code ++ [false]) :: rest) m = _
        rw [ih _ m (by simp only [stackSize_cons]; simp [hmSize] at h; omega)]
        rfl

theorem makeHuffmanMap_eq_treePaths (t : HuffmanTree) (h : (treeChars t).Nodup) :
    makeHuffmanMap t = treePaths t := by
  unfold makeHuffmanMap
  rw [mhmLoop_foldl (hmSize t) [(t, [])] [] (by simp [stackSize])]
  show dfsInsert t [] [] = treePaths t
  rw [dfsInsert_spec t [] [] h (by simp)]
  simp

/-! ### Prefix-freeness of the code table -/

/-- The symmetric non-prefix relation between table entries. -/
def NotPfx (a b : Nat × List Bool) : Prop := ¬(a.2 <+: b.2) ∧ ¬(b.2 <+: a.2)

theorem notPfx_symm : Symmetric NotPfx := fun _ _ h => ⟨h.2, h.1⟩

theorem treePaths_pairwise (t : HuffmanTree) : (treePaths t).Pairwise NotPfx := by
  induction t with
  | Char c => simp [treePaths]
  | Node t1 t2 ih1 ih2 =>
    simp only [treePaths]
    rw [List.pairwise_append]
    refine ⟨List.pairwise_map.mpr (ih2.imp ?_), List.pairwise_map.mpr (ih1.imp ?_), ?_⟩
    · rintro ⟨c, p⟩ ⟨d, q⟩ ⟨h1, h2⟩
      exact ⟨fun hc => h1 (List.cons_prefix_cons.mp hc).2,
        fun hc => h2 (List.cons_prefix_cons.mp hc).2⟩
    · rintro ⟨c, p⟩ ⟨d, q⟩ ⟨h1, h2⟩
      exact ⟨fun hc => h1 (List.cons_prefix_cons.mp hc).2,
        fun hc => h2 (List.cons_prefix_cons.mp hc).2⟩
    · intro a ha b hb
      simp only [List.mem_map] at ha hb
      obtain ⟨⟨c, p⟩, _, rfl⟩ := ha
      obtain ⟨⟨d, q⟩, _, rfl⟩ := hb
      exact ⟨fun hc => by simpa using (List.cons_prefix_cons.mp hc).1,
        fun hc => by simpa using (List.cons_prefix_cons.mp hc).1⟩

/-- Any two distinct entries of the path table are mutually non-prefix. -/
theorem treePaths_notPfx (t : HuffmanTree) {a b : Nat × List Bool}
    (ha : a ∈ treePaths t) (hb : b ∈ treePaths t) (hne : a ≠ b) : NotPfx a b :=
  List.Pairwise.forall notPfx_symm (treePaths_pairwise t) ha hb hne

theorem treePaths_snd_nodup (t : HuffmanTree) : ((treePaths t).map Prod.snd).Nodup := by
  have h : (treePaths t).Pairwise fun a b => a.2 ≠ b.2 :=
    (treePaths_pairwise t).imp fun hab heq => hab.1 (by rw [heq])
  exact List.pairwise_map.mpr h

/-! ### Association-list lookups -/

theorem lookupCode_eq_none_iff (m : List (Nat × List Bool)) (c : Nat) :
    lookupCode m c = none ↔ c ∉ m.map Prod.fst := by
  induction m with
  | nil => simp [lookupCode]
  | cons e rest ih =>
    obtain ⟨d, w⟩ := e
    by_cases hd : d = c
    · subst hd
      simp [lookupCode]
    · simp [lookupCode, hd, ih, Ne.symm hd]

theorem lookupCode_some_of_mem (m : List (Nat × List Bool)) (c : Nat) (v : List Bool)
    (hmem : (c, v) ∈ m) (hnd : (m.map Prod.fst).Nodup) : lookupCode m c = some v := by
  induction m with
  | nil => simp at hmem
  | cons e rest ih =>
    obtain ⟨d, w⟩ := e
    simp only [List.map_cons, List.nodup_cons] at hnd
    rcases List.mem_cons.mp hmem with he | he
    · obtain ⟨rfl, rfl⟩ := Prod.mk.injEq .. ▸ he
      simp_all [lookupCode]
    · have hd : d ≠ c := by
        rintro rfl
        exact hnd.1 (by simpa using List.mem_map_of_mem Prod.fst he)
      simp [lookupCode, hd, ih he hnd.2]

theorem mem_of_lookupCode_some (m : List (Nat × List Bool)) (c : Nat) (v : List Bool)
    (h : lookupCode m c = some v) : (c, v) ∈ m := by
  induction m with
  | nil => simp [lookupCode] at h
  | cons e rest ih =>
    obtain ⟨d, w⟩ := e
    by_cases hd : d = c
    · subst hd
      simp [lookupCode] at h
      simp [h]
    · simp [lookupCode, hd] at h
      simp [ih h]

theorem lookupInv_eq_none_iff (m : List (List Bool × Nat)) (v : List Bool) :
    lookupInv m v = none ↔ v ∉ m.map Prod.fst := by
  induction m with
  | nil => simp [lookupInv]
  | cons e rest ih =>
    obtain ⟨w, d⟩ := e
    by_cases hw : w = v
    · subst hw
      simp [lookupInv]
    · simp [lookupInv, hw, ih, Ne.symm hw]

theorem lookupInv_some_of_mem (m : List (List Bool × Nat)) (v : List Bool) (c : Nat)
    (hmem : (v, c) ∈ m) (hnd : (m.map Prod.fst).Nodup) : lookupInv m v = some c := by
  induction m with
  | nil => simp at hmem
  | cons e rest ih =>
    obtain ⟨w, d⟩ := e
    simp only [List.map_cons, List.nodup_cons] at hnd
    rcases List.mem_cons.mp hmem with he | he
    · obtain ⟨rfl, rfl⟩ := Prod.mk.injEq .. ▸ he
      simp_all [lookupInv]
    · have hw : w ≠ v := by
        rintro rfl
        exact hnd.1 (by simpa using List.mem_map_of_mem Prod.fst he)
      simp [lookupInv, hw, ih he hnd.2]

theorem insertInv_append (m : List (List Bool × Nat)) (v : List Bool) (c : Nat)
    (h : v ∉ m.map Prod.fst) : insertInv m v c = m ++ [(v, c)] := by
  induction m with
  | nil => rfl
  | cons e rest ih =>
    obtain ⟨w, d⟩ := e
    simp only [List.map_cons, List.mem_cons, not_or] at h
    simp [insertInv, Ne.symm h.1, ih h.2]

/-! ### The heap merge loop -/

theorem popMin_none_iff (l : List HuffmanWeight) : popMin l = none ↔ l = [] := by
  cases l with
  | nil => simp [popMin]
  | cons x rest =>
    simp only [popMin]
    cases popMin rest with
    | none => simp
    | some p =>
      obtain ⟨m, rest'⟩ := p
      simp only [List.cons_ne_nil, iff_false]
      split <;> simp

theorem popMin_perm (l : List HuffmanWeight) (x : HuffmanWeight)
    (rest : List HuffmanWeight) (h : popMin l = some (x, rest)) :
    List.Perm l (x :: rest) := by
  induction l generalizing x rest with
  | nil => simp [popMin] at h
  | cons a as ih =>
    cases hrec : popMin as with
    | none =>
      have hnil : as = [] := (popMin_none_iff as).mp hrec
      subst hnil
      have hh : popMin [a] = some (a, []) := rfl
      rw [hh] at h
      simp only [Option.some.injEq, Prod.mk.injEq] at h
      obtain ⟨rfl, rfl⟩ := h
      exact List.Perm.refl _
    | some p =>
      obtain ⟨m, rest'⟩ := p
      have hperm := ih m rest' hrec
      have hh : popMin (a :: as) =
          if a.weight ≤ m.weight then some (a, as) else some (m, a :: rest') := by
        simp only [popMin, hrec]
      rw [hh] at h
      by_cases hw : a.weight ≤ m.weight
      · rw [if_pos hw] at h
        simp only [Option.some.injEq, Prod.mk.injEq] at h
        obtain ⟨rfl, rfl⟩ := h
        exact List.Perm.refl _
      · rw [if_neg hw] at h
        simp only [Option.some.injEq, Prod.mk.injEq] at h
        obtain ⟨rfl, rfl⟩ := h
        exact (hperm.cons a).trans (List.Perm.swap m a rest')

theorem popMin_length (l : List HuffmanWeight) (x : HuffmanWeight)
    (rest : List HuffmanWeight) (h : popMin l = some (x, rest)) :
    l.length = rest.length + 1 := by
  have := (popMin_perm l x rest h).length_eq
  simpa using this

theorem huffLoop_succ_small (fuel : Nat) (l : List HuffmanWeight) (hl : l.length ≤ 1) :
    huffLoop (fuel + 1) l = l := by
  simp only [huffLoop, if_pos hl]

theorem huffLoop_succ_none (fuel : Nat) (l : List HuffmanWeight) (hl : ¬l.length ≤ 1)
    (h1 : popMin l = none) : huffLoop (fuel + 1) l = l := by
  simp only [huffLoop, if_neg hl, h1]

theorem huffLoop_succ_none2 (fuel : Nat) (l : List HuffmanWeight) (t1 : HuffmanWeight)
    (l1 : List HuffmanWeight) (hl : ¬l.length ≤ 1) (h1 : popMin l = some (t1, l1))
    (h2 : popMin l1 = none) : huffLoop (fuel + 1) l = l := by
  simp only [huffLoop, if_neg hl, h1, h2]

theorem huffLoop_succ_step (fuel : Nat) (l : List HuffmanWeight) (t1 t2 : HuffmanWeight)
    (l1 l2 : List HuffmanWeight) (hl : ¬l.length ≤ 1) (h1 : popMin l = some (t1, l1))
    (h2 : popMin l1 = some (t2, l2)) :
    huffLoop (fuel + 1) l =
      huffLoop fuel (l2 ++ [⟨HuffmanTree.Node t1.tree t2.tree, t1.weight + t2.weight⟩]) := by
  simp only [huffLoop, if_neg hl, h1, h2]

theorem huffLoop_length_one (fuel : Nat) :
    ∀ l : List HuffmanWeight, 1 ≤ l.length → l.length ≤ fuel + 1 →
      (huffLoop fuel l).length = 1 := by
  induction fuel with
  | zero =>
    intro l h1 h2
    show l.length = 1
    omega
  | succ fuel ih =>
    intro l h1 h2
    by_cases hl : l.length ≤ 1
    · rw [huffLoop_succ_small fuel l hl]
      omega
    · cases hp1 : popMin l with
      | none =>
        have := (popMin_none_iff l).mp hp1
        subst this
        simp at h1
      | some p1 =>
        obtain ⟨t1, l1⟩ := p1
        have hlen1 := popMin_length l t1 l1 hp1
        cases hp2 : popMin l1 with
        | none =>
          have := (popMin_none_iff l1).mp hp2
          subst this
          simp at hlen1
          omega
        | some p2 =>
          obtain ⟨t2, l2⟩ := p2
          have hlen2 := popMin_length l1 t2 l2 hp2
          rw [huffLoop_succ_step fuel l t1 t2 l1 l2 hl hp1 hp2]
          apply ih
          · simp
          · simp
            omega

/-- All leaf characters in a heap, in order. -/
def heapChars (l : List HuffmanWeight) : List Nat :=
  (l.map fun e => treeChars e.tree).flatten

theorem heapChars_perm {l l' : List HuffmanWeight} (h : List.Perm l l') :
    List.Perm (heapChars l) (heapChars l') :=
  (h.map _).join

theorem heapChars_cons (x : HuffmanWeight) (l : List HuffmanWeight) :
    heapChars (x :: l) = treeChars x.tree ++ heapChars l := rfl

theorem heapChars_append (l₁ l₂ : List HuffmanWeight) :
    heapChars (l₁ ++ l₂) = heapChars l₁ ++ heapChars l₂ := by
  simp [heapChars]

theorem huffLoop_chars (fuel : Nat) :
    ∀ l : List HuffmanWeight, List.Perm (heapChars (huffLoop fuel l)) (heapChars l) := by
  induction fuel with
  | zero => intro l; exact List.Perm.refl _
  | succ fuel ih =>
    intro l
    by_cases hl : l.length ≤ 1
    · rw [huffLoop_succ_small fuel l hl]
    · cases hp1 : popMin l with
      | none => rw [huffLoop_succ_none fuel l hl hp1]
      | some p1 =>
        obtain ⟨t1, l1⟩ := p1
        cases hp2 : popMin l1 with
        | none => rw [huffLoop_succ_none2 fuel l t1 l1 hl hp1 hp2]
        | some p2 =>
          obtain ⟨t2, l2⟩ := p2
          rw [huffLoop_succ_step fuel l t1 t2 l1 l2 hl hp1 hp2]
          have hperm1 := heapChars_perm (popMin_perm l t1 l1 hp1)
          have hperm2 := heapChars_perm (popMin_perm l1 t2 l2 hp2)
          rw [heapChars_cons] at hperm1 hperm2
          have target : List.Perm
              (heapChars (l2 ++ [⟨HuffmanTree.Node t1.tree t2.tree, t1.weight + t2.weight⟩]))
              (heapChars l) := by
            have e1 : heapChars (l2 ++
                [⟨HuffmanTree.Node t1.tree t2.tree, t1.weight + t2.weight⟩]) =
                heapChars l2 ++ (treeChars t2.tree ++ treeChars t1.tree) := by
              rw [heapChars_append]
              simp [heapChars, treeChars]
            have q1 : List.Perm (heapChars l2 ++ (treeChars t2.tree ++ treeChars t1.tree))
                ((treeChars t2.tree ++ treeChars t1.tree) ++ heapChars l2) :=
              List.perm_append_comm
            have q2 : List.Perm ((treeChars t2.tree ++ treeChars t1.tree) ++ heapChars l2)
                ((treeChars t1.tree ++ treeChars t2.tree) ++ heapChars l2) :=
              List.Perm.append_right _ List.perm_append_comm
            have q3 : List.Perm (treeChars t1.tree ++ (treeChars t2.tree ++ heapChars l2))
                (treeChars t1.tree ++ heapChars l1) := hperm2.symm.append_left _
            have q4 : List.Perm (treeChars t1.tree ++ heapChars l1) (heapChars l) :=
              hperm1.symm
            rw [e1]
            have q12 := q1.trans q2
            rw [List.append_assoc] at q12
            exact (q12.trans q3).trans q4
          exact (ih _).trans target

/-- Auxiliary: flattening singleton lists. -/
theorem flatten_singletons (l : List Nat) : (l.map fun c => [c]).flatten = l := by
  induction l with
  | nil => rfl
  | cons x xs ih => simp [ih]

/-- A non-empty frequency table yields a tree whose leaf characters are a
permutation of the table keys. -/
theorem makeHuffmanTree_some (freq : List (Nat × Nat)) (hne : freq ≠ []) :
    ∃ t, makeHuffmanTree freq = some t ∧
      List.Perm (treeChars t) (freq.map Prod.fst) := by
  have h1 : 1 ≤ (freq.map fun e => (⟨HuffmanTree.Char e.1, e.2⟩ : HuffmanWeight)).length := by
    simp
    exact List.length_pos.mpr hne
  have hone : (huffLoop freq.length
      (freq.map fun e => (⟨HuffmanTree.Char e.1, e.2⟩ : HuffmanWeight))).length = 1 :=
    huffLoop_length_one freq.length _ h1 (by simp)
  obtain ⟨x, hx⟩ := List.length_eq_one.mp hone
  refine ⟨x.tree, ?_, ?_⟩
  · unfold makeHuffmanTree
    rw [hx]
  · have hperm := huffLoop_chars freq.length
      (freq.map fun e => (⟨HuffmanTree.Char e.1, e.2⟩ : HuffmanWeight))
    rw [hx] at hperm
    have hl : heapChars [x] = treeChars x.tree := by
      simp [heapChars]
    have hr : heapChars (freq.map fun e => (⟨HuffmanTree.Char e.1, e.2⟩ : HuffmanWeight)) =
        freq.map Prod.fst := by
      unfold heapChars
      rw [List.map_map]
      have h2 : ((fun w : HuffmanWeight => treeChars w.tree) ∘
          fun e : Nat × Nat => (⟨HuffmanTree.Char e.1, e.2⟩ : HuffmanWeight)) =
          fun e : Nat × Nat => [e.1] := rfl
      rw [h2]
      have h3 : (freq.map fun e : Nat × Nat => [e.1]) =
          (freq.map Prod.fst).map fun c => [c] := by
        rw [List.map_map]
        rfl
      rw [h3, flatten_singletons]
    rw [hl, hr] at hperm
    exact hperm

/-! ### Frequency table -/

theorem bumpOcc_fst (m : List (Nat × Nat)) (c : Nat) :
    (bumpOcc m c).map Prod.fst =
      if c ∈ m.map Prod.fst then m.map Prod.fst else m.map Prod.fst ++ [c] := by
  induction m with
  | nil => simp [bumpOcc]
  | cons e rest ih =>
    obtain ⟨d, k⟩ := e
    by_cases hd : d = c
    · subst hd
      simp [bumpOcc]
    · simp only [bumpOcc, if_neg hd, List.map_cons, ih]
      by_cases hc : c ∈ rest.map Prod.fst
      · simp [hc, Ne.symm hd]
      · simp [hc, Ne.symm hd]

theorem mem_bumpOcc_fst (m : List (Nat × Nat)) (c x : Nat) :
    x ∈ (bumpOcc m c).map Prod.fst ↔ x ∈ m.map Prod.fst ∨ x = c := by
  rw [bumpOcc_fst]
  by_cases hc : c ∈ m.map Prod.fst
  · simp only [if_pos hc]
    constructor
    · exact Or.inl
    · rintro (h | rfl)
      · exact h
      · exact hc
  · simp [if_neg hc]

theorem bumpOcc_nodup (m : List (Nat × Nat)) (c : Nat) (h : (m.map Prod.fst).Nodup) :
    ((bumpOcc m c).map Prod.fst).Nodup := by
  rw [bumpOcc_fst]
  by_cases hc : c ∈ m.map Prod.fst
  · simpa [hc] using h
  · simp only [if_neg hc]
    simp [List.nodup_append, h, hc]

theorem bumpOcc_length (m : List (Nat × Nat)) (c : Nat) :
    (bumpOcc m c).length ≤ m.length + 1 := by
  induction m with
  | nil => simp [bumpOcc]
  | cons e rest ih =>
    obtain ⟨d, k⟩ := e
    by_cases hd : d = c
    · subst hd
      simp [bumpOcc]
    · simp only [bumpOcc, if_neg hd, List.length_cons]
      omega

theorem foldlBump_nodup (s : List Nat) :
    ∀ m : List (Nat × Nat), (m.map Prod.fst).Nodup →
      ((s.foldl bumpOcc m).map Prod.fst).Nodup := by
  induction s with
  | nil => intro m h; exact h
  | cons x xs ih => intro m h; exact ih (bumpOcc m x) (bumpOcc_nodup m x h)

theorem foldlBump_mem (s : List Nat) :
    ∀ (m : List (Nat × Nat)) (c : Nat),
      c ∈ (s.foldl bumpOcc m).map Prod.fst ↔ c ∈ m.map Prod.fst ∨ c ∈ s := by
  induction s with
  | nil => intro m c; simp
  | cons x xs ih =>
    intro m c
    show c ∈ (xs.foldl bumpOcc (bumpOcc m x)).map Prod.fst ↔ _
    rw [ih (bumpOcc m x) c, mem_bumpOcc_fst]
    simp
    tauto

theorem foldlBump_length (s : List Nat) :
    ∀ m : List (Nat × Nat), (s.foldl bumpOcc m).length ≤ m.length + s.length := by
  induction s with
  | nil => intro m; simp
  | cons x xs ih =>
    intro m
    have h1 := ih (bumpOcc m x)
    have h2 := bumpOcc_length m x
    show (xs.foldl bumpOcc (bumpOcc m x)).length ≤ _
    simp only [List.length_cons]
    omega

theorem nbOcc_keys_nodup (s : List Nat) : ((nbOcc s).map Prod.fst).Nodup :=
  foldlBump_nodup s [] (by simp)

theorem nbOcc_keys_mem (s : List Nat) (c : Nat) :
    c ∈ (nbOcc s).map Prod.fst ↔ c ∈ s := by
  simpa using foldlBump_mem s [] c

theorem nbOcc_length_le (s : List Nat) : (nbOcc s).length ≤ s.length := by
  simpa using foldlBump_length s []

theorem nbOcc_ne_nil (s : List Nat) (h : s ≠ []) : nbOcc s ≠ [] := by
  intro hnil
  cases s with
  | nil => exact h rfl
  | cons x xs =>
    have : x ∈ (nbOcc (x :: xs)).map Prod.fst := (nbOcc_keys_mem _ x).mpr (by simp)
    rw [hnil] at this
    simp at this

/-! ### UTF-8 encoding facts -/

theorem utf8Encode_ne_nil (c : Nat) : utf8Encode c ≠ [] := by
  unfold utf8Encode
  split
  · simp
  · split
    · simp
    · split <;> simp

theorem utf8Encode_no10 (c : Nat) (h : c ≠ 10) : ∀ x ∈ utf8Encode c, x ≠ 10 := by
  intro x hx
  unfold utf8Encode at hx
  split at hx
  · simp at hx
    omega
  · split at hx
    · simp at hx
      rcases hx with h1 | h1 <;> omega
    · split at hx
      · simp at hx
        rcases hx with h1 | h1 | h1 <;> omega
      · simp at hx
        rcases hx with h1 | h1 | h1 | h1 <;> omega

theorem utf8Encode_small (c : Nat) (h : c < 128) : utf8Encode c = [c] := by
  simp [utf8Encode, h]

theorem utf8Encode_two (c : Nat) (h1 : 128 ≤ c) (h2 : c < 2048) :
    utf8Encode c = [192 + c / 64, 128 + c % 64] := by
  rw [utf8Encode, if_neg (by omega), if_pos h2]

set_option maxRecDepth 4000 in
theorem utf8DecodeFirst_encode (c : Nat) (rest : List Nat) (h : c < 2048) :
    utf8DecodeFirst (utf8Encode c ++ rest) = some c := by
  by_cases h1 : c < 128
  · rw [utf8Encode_small c h1]
    simp [utf8DecodeFirst, h1]
  · rw [utf8Encode_two c (by omega) h]
    have hdm := Nat.div_add_mod c 64
    have hmlt : c % 64 < 64 := Nat.mod_lt _ (by norm_num)
    have hdlt : c / 64 < 32 := by omega
    have hdge : 2 ≤ c / 64 := by omega
    show utf8DecodeFirst ((192 + c / 64) :: (128 + c % 64) :: rest) = some c
    simp only [utf8DecodeFirst]
    rw [if_neg (by omega), if_neg (by omega), if_pos (by omega)]
    have hb1 : (decide (128 ≤ 128 + c % 64) && decide (128 + c % 64 < 192)) = true := by
      simp
      omega
    split
    · congr 1
      omega
    · rename_i hfalse
      exact absurd hb1 hfalse

/-! ### Splitting at byte index 2 on the table lines -/

theorem splitAt2_cons2 (x y : Nat) (rest : List Nat)
    (h : ∀ b ∈ rest.head?, isContinuation b = false) :
    splitAt2 (x :: y :: rest) = some ([x, y], rest) := by
  unfold splitAt2
  rw [if_neg (by simp)]
  cases rest with
  | nil => simp
  | cons b bs =>
    have hb : isContinuation b = false := h b rfl
    simp [hb]

theorem bitChars_head_not_cont (v : List Bool) :
    ∀ b ∈ (bitChars v).head?, isContinuation b = false := by
  intro b hb
  cases v with
  | nil => simp [bitChars] at hb
  | cons x xs =>
    simp [bitChars] at hb
    cases x <;> simp at hb <;> simp [← hb, isContinuation]

/-- The lines an `entryLine` becomes after the file is split at newlines. -/
def entryLines (e : Nat × List Bool) : List (List Nat) :=
  if e.1 = 10 then [[], 32 :: bitChars e.2] else [entryLine e.1 e.2]

theorem splitOnByte_entryLine (c : Nat) (v : List Bool) :
    splitOnByte (entryLine c v) = entryLines (c, v) := by
  by_cases hc : c = 10
  · subst hc
    show splitOnByte ([10] ++ 32 :: bitChars v) = _
    have h1 : splitOnByte ([10] ++ 32 :: bitChars v) = [] :: splitOnByte (32 :: bitChars v) := by
      simp [splitOnByte]
    rw [h1, splitOnByte_no10 (32 :: bitChars v) (by
      intro x hx
      rcases List.mem_cons.mp hx with rfl | hx
      · omega
      · exact bitChars_no10 v x hx)]
    simp [entryLines]
  · rw [splitOnByte_no10 (entryLine c v) (by
      intro x hx
      rcases List.mem_append.mp hx with hx | hx
      · exact utf8Encode_no10 c hc x hx
      · rcases List.mem_cons.mp hx with rfl | hx
        · omega
        · exact bitChars_no10 v x hx)]
    simp [entryLines, hc]

/-! ### Parsing the code table -/

theorem entryLine_ne_nil (c : Nat) (v : List Bool) : entryLine c v ≠ [] := by
  unfold entryLine
  intro h
  rcases List.append_eq_nil.mp h with ⟨h1, _⟩
  exact utf8Encode_ne_nil c h1

theorem parseTable_step_nl (k : Nat) (v : List Bool) (rem : List (List Nat))
    (minLen : Nat) (acc : List (List Bool × Nat)) :
    parseTable (k + 1) ([] :: (32 :: bitChars v) :: rem) minLen acc =
      parseTable k rem (min minLen v.length) (insertInv acc v 10) := by
  have htrim : trimBytes (32 :: bitChars v) = bitChars v :=
    trimBytes_cons_space _ (bitChars_no_ws v)
  simp only [parseTable, htrim, stringToBitVec_bitChars]
  simp

theorem parseTable_step_entry (k : Nat) (c : Nat) (v : List Bool) (rem : List (List Nat))
    (minLen : Nat) (acc : List (List Bool × Nat)) (hc : c < 2048) (hc10 : c ≠ 10) :
    parseTable (k + 1) (entryLine c v :: rem) minLen acc =
      parseTable k rem (min minLen v.length) (insertInv acc v c) := by
  have hne := entryLine_ne_nil c v
  have hdec : utf8DecodeFirst (entryLine c v) = some c :=
    utf8DecodeFirst_encode c (32 :: bitChars v) hc
  by_cases h1 : c < 128
  · have hsplit : splitAt2 (entryLine c v) = some ([c, 32], bitChars v) := by
      rw [entryLine, utf8Encode_small c h1]
      exact splitAt2_cons2 c 32 (bitChars v) (bitChars_head_not_cont v)
    have htrim : trimBytes (bitChars v) = bitChars v :=
      trimBytes_clean _ (bitChars_no_ws v)
    simp only [parseTable, if_neg hne, hdec, hsplit, htrim, stringToBitVec_bitChars]
  · have hsplit : splitAt2 (entryLine c v) =
        some ([192 + c / 64, 128 + c % 64], 32 :: bitChars v) := by
      rw [entryLine, utf8Encode_two c (by omega) hc]
      exact splitAt2_cons2 _ _ (32 :: bitChars v) (by
        intro b hb
        simp at hb
        subst hb
        decide)
    have htrim : trimBytes (32 :: bitChars v) = bitChars v :=
      trimBytes_cons_space _ (bitChars_no_ws v)
    simp only [parseTable, if_neg hne, hdec, hsplit, htrim, stringToBitVec_bitChars]

theorem parseTable_spec (entries : List (Nat × List Bool)) :
    ∀ (suffix : List (List Nat)) (minLen : Nat) (acc : List (List Bool × Nat)),
      (∀ e ∈ entries, e.1 < 2048) →
      (∀ e ∈ entries, e.2 ∉ acc.map Prod.fst) →
      ((entries.map Prod.snd).Nodup) →
      parseTable entries.length (entries.flatMap entryLines ++ suffix) minLen acc =
        some (acc ++ entries.map (fun e => (e.2, e.1)),
          entries.foldl (fun a e => min a e.2.length) minLen, suffix) := by
  induction entries with
  | nil =>
    intro suffix minLen acc _ _ _
    simp [parseTable]
  | cons e rest ih =>
    intro suffix minLen acc hsmall hfresh hnd
    obtain ⟨c, v⟩ := e
    have hfresh0 : v ∉ acc.map Prod.fst := hfresh (c, v) (by simp)
    have hnd0 : v ∉ rest.map Prod.snd := by
      simp only [List.map_cons, List.nodup_cons] at hnd
      exact hnd.1
    have hndrest : (rest.map Prod.snd).Nodup := by
      simp only [List.map_cons, List.nodup_cons] at hnd
      exact hnd.2
    have hfresh' : ∀ e ∈ rest, e.2 ∉ (acc ++ [(v, c)]).map Prod.fst := by
      intro e he
      simp only [List.map_append, List.mem_append]
      rintro (hm | hm)
      · exact hfresh e (by simp [he]) hm
      · simp at hm
        exact hnd0 (hm ▸ List.mem_map_of_mem Prod.snd he)
    have hsmall' : ∀ e ∈ rest, e.1 < 2048 := fun e he => hsmall e (by simp [he])
    have hins : insertInv acc v c = acc ++ [(v, c)] := insertInv_append acc v c hfresh0
    by_cases hc10 : c = 10
    · subst hc10
      show parseTable (rest.length + 1)
        ((entryLines (10, v) ++ rest.flatMap entryLines) ++ suffix) minLen acc = _
      have hel : entryLines (10, v) = [[], 32 :: bitChars v] := by simp [entryLines]
      rw [hel]
      show parseTable (rest.length + 1)
        ([] :: (32 :: bitChars v) :: (rest.flatMap entryLines ++ suffix)) minLen acc = _
      rw [parseTable_step_nl, hins, ih suffix (min minLen v.length) (acc ++ [(v, 10)])
        hsmall' hfresh' hndrest]
      simp
    · show parseTable (rest.length + 1)
        ((entryLines (c, v) ++ rest.flatMap entryLines) ++ suffix) minLen acc = _
      have hel : entryLines (c, v) = [entryLine c v] := by simp [entryLines, hc10]
      rw [hel]
      show parseTable (rest.length + 1)
        (entryLine c v :: (rest.flatMap entryLines ++ suffix)) minLen acc = _
      rw [parseTable_step_entry _ c v _ _ _ (hsmall (c, v) (by simp)) hc10, hins,
        ih suffix (min minLen v.length) (acc ++ [(v, c)]) hsmall' hfresh' hndrest]
      simp

/-! ### Facts about the running minimum -/

theorem foldl_min_le_init (entries : List (Nat × List Bool)) :
    ∀ a : Nat, entries.foldl (fun a e => min a e.2.length) a ≤ a := by
  induction entries with
  | nil => intro a; simp
  | cons e rest ih =>
    intro a
    have := ih (min a e.2.length)
    simp only [List.foldl_cons]
    omega

theorem foldl_min_le (entries : List (Nat × List Bool)) :
    ∀ (a : Nat), ∀ e ∈ entries, entries.foldl (fun a e => min a e.2.length) a ≤ e.2.length := by
  induction entries with
  | nil => intro a e he; simp at he
  | cons x rest ih =>
    intro a e he
    rcases List.mem_cons.mp he with rfl | he
    · have := foldl_min_le_init rest (min a e.2.length)
      simp only [List.foldl_cons]
      omega
    · exact ih (min a x.2.length) e he

/-! ### The scanning loop -/

theorem scanLoop_exit (fuel : Nat) (inv : List (List Bool × Nat)) (code : List Bool)
    (cnt minLen start len l : Nat) (out : List Nat)
    (h : ¬(start < code.length ∧ l < cnt)) :
    scanLoop (fuel + 1) inv code cnt minLen start len l out = some out := by
  simp only [scanLoop, if_neg h]

theorem scanLoop_step_none (fuel : Nat) (inv : List (List Bool × Nat)) (code : List Bool)
    (cnt minLen start len l : Nat) (out : List Nat)
    (hguard : start < code.length ∧ l < cnt) (hok : ¬code.length < start + len)
    (hlk : lookupInv inv ((code.drop start).take len) = none) :
    scanLoop (fuel + 1) inv code cnt minLen start len l out =
      scanLoop fuel inv code cnt minLen start (len + 1) l out := by
  simp only [scanLoop, if_pos hguard, if_neg hok, hlk]

theorem scanLoop_step_some (fuel : Nat) (inv : List (List Bool × Nat)) (code : List Bool)
    (cnt minLen start len l : Nat) (out : List Nat) (c : Nat)
    (hguard : start < code.length ∧ l < cnt) (hok : ¬code.length < start + len)
    (hlk : lookupInv inv ((code.drop start).take len) = some c) :
    scanLoop (fuel + 1) inv code cnt minLen start len l out =
      scanLoop fuel inv code cnt minLen (start + len) minLen (l + 1) (out ++ [c]) := by
  simp only [scanLoop, if_pos hguard, if_neg hok, hlk]

theorem drop_ne_nil_lt (code : List Bool) (n : Nat) (h : code.drop n ≠ []) :
    n < code.length := by
  by_contra hc
  exact h (List.drop_eq_nil_of_le (Nat.le_of_not_lt hc))

theorem take_not_key (paths : List (Nat × List Bool)) (hnp : paths.Pairwise NotPfx)
    (c : Nat) (p : List Bool) (hp : (c, p) ∈ paths) (k : Nat) (hk : k < p.length) :
    p.take k ∉ paths.map Prod.snd := by
  intro hcontra
  obtain ⟨⟨d, q⟩, hdq, hq⟩ := List.mem_map.mp hcontra
  simp only at hq
  have hqlen : q.length = k := by
    rw [hq, List.length_take]
    omega
  have hqpfx : q <+: p := hq ▸ List.take_prefix k p
  have hne : (d, q) ≠ (c, p) := by
    intro he
    have hqp : q = p := congrArg Prod.snd he
    rw [hqp] at hqlen
    omega
  exact (List.Pairwise.forall notPfx_symm hnp hdq hp hne).1 hqpfx

/-- Correctness of the scanning loop: on a bit stream that is the
concatenation of codes of `suffix` followed by non-empty padding, the loop
emits exactly `suffix` (prefix-freeness makes the first match at each
position the intended code; the symbol count stops the loop before the
padding is scanned). -/
theorem scan_decodes (paths : List (Nat × List Bool))
    (hnd : (paths.map Prod.snd).Nodup) (hnp : paths.Pairwise NotPfx)
    (code : List Bool) (cnt minLen : Nat)
    (hmin : ∀ e ∈ paths, minLen ≤ e.2.length) :
    ∀ (suffix : List Nat) (f : Nat → List Bool) (pad : List Bool), pad ≠ [] →
      (∀ c ∈ suffix, (c, f c) ∈ paths) →
      ∀ (start l : Nat) (out : List Nat),
        code.drop start = suffix.flatMap f ++ pad →
        l + suffix.length = cnt →
        ∀ fuel : Nat, suffix.length * (code.length + 1) + 1 ≤ fuel →
          scanLoop fuel (paths.map fun e => (e.2, e.1)) code cnt minLen start minLen l out =
            some (out ++ suffix) := by
  have hinvfst : (paths.map fun e => (e.2, e.1)).map Prod.fst = paths.map Prod.snd := by
    rw [List.map_map]
    rfl
  intro suffix f pad hpad
  induction suffix with
  | nil =>
    intro _ start l out hdrop hcnt fuel hfuel
    simp only [List.length_nil, Nat.zero_mul, Nat.zero_add] at hfuel
    simp only [List.length_nil, Nat.add_zero] at hcnt
    cases fuel with
    | zero => omega
    | succ fuel =>
      rw [scanLoop_exit fuel _ code cnt minLen start minLen l out (by omega)]
      simp
  | cons c rest ih =>
    intro hf start l out hdrop hcnt fuel hfuel
    have hp : (c, f c) ∈ paths := hf c (by simp)
    have hminp : minLen ≤ (f c).length := hmin (c, f c) hp
    have hdrop2 : code.drop start = f c ++ (rest.flatMap f ++ pad) := by
      rw [hdrop]
      simp
    have hstartlt : start < code.length := by
      apply drop_ne_nil_lt
      rw [hdrop2]
      simp [hpad]
    have hlenle : start + (f c).length ≤ code.length := by
      have h1 : (code.drop start).length = code.length - start := by simp
      rw [hdrop2] at h1
      simp at h1
      omega
    have hplen : (f c).length ≤ code.length := by omega
    have hlcnt : l < cnt := by
      simp at hcnt
      omega
    have hrest : ∀ c' ∈ rest, (c', f c') ∈ paths := fun c' hc' => hf c' (by simp [hc'])
    have grow : ∀ j k fuel, minLen ≤ k → k + j = (f c).length →
        j + (rest.length * (code.length + 1) + 1) + 1 ≤ fuel →
        scanLoop fuel (paths.map fun e => (e.2, e.1)) code cnt minLen start k l out =
          some (out ++ c :: rest) := by
      intro j
      induction j with
      | zero =>
        intro k fuel hk1 hk2 hfuel2
        have hk : k = (f c).length := by omega
        subst hk
        cases fuel with
        | zero => omega
        | succ fuel =>
          have hchunk : (code.drop start).take (f c).length = f c := by
            rw [hdrop2, List.take_left]
          have hlk : lookupInv (paths.map fun e => (e.2, e.1))
              ((code.drop start).take (f c).length) = some c := by
            rw [hchunk]
            exact lookupInv_some_of_mem _ (f c) c
              (List.mem_map.mpr ⟨(c, f c), hp, rfl⟩) (by rw [hinvfst]; exact hnd)
          rw [scanLoop_step_some fuel _ code cnt minLen start (f c).length l out c
            ⟨hstartlt, hlcnt⟩ (by omega) hlk]
          have := ih hrest (start + (f c).length) (l + 1) (out ++ [c]) (by
            have hdd : code.drop (start + (f c).length) =
                (code.drop start).drop (f c).length := by
              rw [List.drop_drop]
            rw [hdd, hdrop2, List.drop_left]) (by simp at hcnt ⊢; omega) fuel (by omega)
          rw [this]
          simp
      | succ j ihj =>
        intro k fuel hk1 hk2 hfuel2
        have hklt : k < (f c).length := by omega
        cases fuel with
        | zero => omega
        | succ fuel =>
          have hchunk : (code.drop start).take k = (f c).take k := by
            rw [hdrop2, List.take_append_of_le_length (by omega)]
          have hlk : lookupInv (paths.map fun e => (e.2, e.1))
              ((code.drop start).take k) = none := by
            rw [hchunk, lookupInv_eq_none_iff, hinvfst]
            exact take_not_key paths hnp c (f c) hp k hklt
          rw [scanLoop_step_none fuel _ code cnt minLen start k l out
            ⟨hstartlt, hlcnt⟩ (by omega) hlk]
          exact ihj (k + 1) fuel (by omega) (by omega) (by omega)
    have hmul : (rest.length + 1) * (code.length + 1) =
        rest.length * (code.length + 1) + (code.length + 1) := by ring
    apply grow ((f c).length - minLen) minLen fuel (Nat.le_refl minLen) (by omega)
    simp at hfuel
    omega

/-! ### Unfolding equations for the two entry points -/

theorem encodeFile_eq (text : List Nat) (t : HuffmanTree) (bits : List Bool)
    (ht : makeHuffmanTree (nbOcc text) = some t)
    (hb : concatCodes (makeHuffmanMap t) text = some bits) :
    encodeFile text =
      some (joinLines (headerLines text.length (makeHuffmanMap t)) ++
        10 :: packBits (padBits bits)) := by
  unfold encodeFile
  rw [ht]
  simp only [hb]

theorem decodeFile_eq (file : List Nat) (l0 : List Nat) (rest : List (List Nat))
    (s1 s2 : List Nat) (cc dc : Nat) (inv : List (List Bool × Nat)) (minLen : Nat)
    (remaining : List (List Nat))
    (hsplit : splitOnByte file = l0 :: rest)
    (honce : splitOnceSpace l0 = some (s1, s2))
    (h1 : parseU32 s1 = some cc) (h2 : parseU32 s2 = some dc)
    (hpt : parseTable dc rest UMAX [] = some (inv, minLen, remaining)) :
    decodeFile file =
      scanLoop ((cc + 1) * ((bytesToBits (joinLines remaining)).length + 3)) inv
        (bytesToBits (joinLines remaining)) cc minLen 0 minLen 0 [] := by
  unfold decodeFile
  rw [hsplit]
  simp only [honce, h1, h2, hpt]

/-! ### concatCodes succeeds on covered texts -/

theorem concatCodes_eq (m : List (Nat × List Bool)) :
    ∀ text : List Nat, (∀ c ∈ text, c ∈ m.map Prod.fst) →
      concatCodes m text = some (text.flatMap fun c => (lookupCode m c).getD []) := by
  intro text
  induction text with
  | nil => intro _; simp [concatCodes]
  | cons c rest ih =>
    intro h
    have hc : c ∈ m.map Prod.fst := h c (by simp)
    cases hl : lookupCode m c with
    | none => exact absurd ((lookupCode_eq_none_iff m c).mp hl) (by simpa using hc)
    | some v =>
      have hrest := ih fun c' hc' => h c' (by simp [hc'])
      simp only [concatCodes, hl, hrest, List.flatMap_cons]
      simp

/-! ### The header line splits cleanly -/

theorem splitOnByte_line0 (n k : Nat) :
    splitOnByte (natToDecimal n ++ 32 :: natToDecimal k) =
      [natToDecimal n ++ 32 :: natToDecimal k] := by
  apply splitOnByte_no10
  intro x hx
  rcases List.mem_append.mp hx with hx | hx
  · exact natToDecimal_no10 n x hx
  · rcases List.mem_cons.mp hx with rfl | hx
    · omega
    · exact natToDecimal_no10 k x hx

theorem headerLines_split (n : Nat) (m : List (Nat × List Bool)) (packed : List Nat) :
    splitOnByte (joinLines (headerLines n m) ++ 10 :: packed) =
      (natToDecimal n ++ 32 :: natToDecimal m.length) ::
        (m.flatMap entryLines ++ splitOnByte packed) := by
  rw [splitOnByte_joinLines_append (headerLines n m) packed (by simp [headerLines])]
  unfold headerLines
  simp only [List.map_cons, List.flatten_cons, splitOnByte_line0]
  have hmap : (m.map fun e => entryLine e.1 e.2).map splitOnByte = m.map entryLines := by
    rw [List.map_map]
    apply List.map_congr_left
    intro e _
    obtain ⟨c, v⟩ := e
    exact splitOnByte_entryLine c v
  rw [hmap]
  simp [List.flatMap_def]

/-! ### The round trip -/

/-- Round trip for texts whose characters are below U+0800 (UTF-8 length at
most 2 bytes, so the decoder's byte-indexed `split_at(2)` stays on a
character boundary) and whose length fits in `u32`. -/
theorem roundTrip (text : List Nat) (h1 : text ≠ []) (h2 : ∀ c ∈ text, c < 2048)
    (h3 : text.length < 2 ^ 32) : (encodeFile text).bind decodeFile = some text := by
  have hfne : nbOcc text ≠ [] := nbOcc_ne_nil text h1
  obtain ⟨t, htree, hperm⟩ := makeHuffmanTree_some (nbOcc text) hfne
  have hknodup := nbOcc_keys_nodup text
  have hcnodup : (treeChars t).Nodup := hperm.nodup_iff.mpr hknodup
  have hmapeq : makeHuffmanMap t = treePaths t := makeHuffmanMap_eq_treePaths t hcnodup
  have hmemt : ∀ c ∈ text, c ∈ (treePaths t).map Prod.fst := by
    intro c hc
    rw [treePaths_fst, hperm.mem_iff, nbOcc_keys_mem]
    exact hc
  have hconcat : concatCodes (makeHuffmanMap t) text =
      some (text.flatMap fun c => (lookupCode (treePaths t) c).getD []) := by
    rw [hmapeq]
    exact concatCodes_eq (treePaths t) text hmemt
  have henc := encodeFile_eq text t _ htree hconcat
  rw [henc, Option.some_bind, hmapeq]
  have hmlen : (treePaths t).length = (nbOcc text).length := by
    have hl1 : (treePaths t).length = (treeChars t).length := by
      rw [← treePaths_fst t]
      simp
    have hl2 := hperm.length_eq
    rw [hl1, hl2]
    simp
  have hmlt : (treePaths t).length < 2 ^ 32 := by
    have := nbOcc_length_le text
    omega
  have hsmall : ∀ e ∈ treePaths t, e.1 < 2048 := by
    intro e he
    have hm : e.1 ∈ (treePaths t).map Prod.fst := List.mem_map_of_mem Prod.fst he
    rw [treePaths_fst, hperm.mem_iff, nbOcc_keys_mem] at hm
    exact h2 e.1 hm
  have hsnodup := treePaths_snd_nodup t
  have hpt := parseTable_spec (treePaths t)
    (splitOnByte (packBits (padBits (text.flatMap fun c =>
      (lookupCode (treePaths t) c).getD [])))) UMAX [] hsmall (by simp) hsnodup
  rw [List.nil_append] at hpt
  have hdec := decodeFile_eq _ _ _ _ _ text.length (treePaths t).length
    ((treePaths t).map fun e => (e.2, e.1))
    ((treePaths t).foldl (fun a e => min a e.2.length) UMAX)
    (splitOnByte (packBits (padBits (text.flatMap fun c =>
      (lookupCode (treePaths t) c).getD []))))
    (headerLines_split text.length (treePaths t) _)
    (splitOnceSpace_append _ _ (natToDecimal_no32 _))
    (parseU32_natToDecimal _ h3) (parseU32_natToDecimal _ hmlt) hpt
  rw [hdec, joinLines_splitOnByte, unpack_pack _ (by
    have := padBits_aligned (text.flatMap fun c => (lookupCode (treePaths t) c).getD [])
    omega)]
  have hmod : (text.flatMap fun c => (lookupCode (treePaths t) c).getD []).length % 8 < 8 :=
    Nat.mod_lt _ (by norm_num)
  have hpadne : List.replicate
      (8 - (text.flatMap fun c => (lookupCode (treePaths t) c).getD []).length % 8)
      false ≠ [] := by
    simp
    omega
  have hf : ∀ c ∈ text, (c, (lookupCode (treePaths t) c).getD []) ∈ treePaths t := by
    intro c hc
    have hcm := hmemt c hc
    cases hl : lookupCode (treePaths t) c with
    | none =>
      rw [lookupCode_eq_none_iff] at hl
      exact absurd hcm hl
    | some v =>
      have hm := mem_of_lookupCode_some _ c v hl
      simpa [hl] using hm
  have hmin := foldl_min_le (treePaths t) UMAX
  have hscan := scan_decodes (treePaths t) hsnodup (treePaths_pairwise t)
    (padBits (text.flatMap fun c => (lookupCode (treePaths t) c).getD []))
    text.length ((treePaths t).foldl (fun a e => min a e.2.length) UMAX) hmin
    text (fun c => (lookupCode (treePaths t) c).getD [])
    (List.replicate
      (8 - (text.flatMap fun c => (lookupCode (treePaths t) c).getD []).length % 8) false)
    hpadne hf 0 0 [] (by simp [padBits]) (by simp)
    ((text.length + 1) *
      ((padBits (text.flatMap fun c => (lookupCode (treePaths t) c).getD [])).length + 3))
    (by
      have hexp : (text.length + 1) *
          ((padBits (text.flatMap fun c => (lookupCode (treePaths t) c).getD [])).length + 3)
          = text.length *
            ((padBits (text.flatMap fun c => (lookupCode (treePaths t) c).getD [])).length + 1)
            + 2 * text.length +
            (padBits (text.flatMap fun c => (lookupCode (treePaths t) c).getD [])).length
            + 3 := by
        ring
      omega)
  simpa using hscan

/-! ## The claims -/

/-- C1 (counterexample): the round trip fails as universally stated.  For the
text "€a" (the euro sign has a 3-byte UTF-8 encoding) `decode_file` panics:
byte index 2 of the code-table line falls inside the character, so
`split_at(2)` aborts, and the composition does not return the original text. -/
theorem claimC1_cex : (encodeFile [8364, 97]).bind decodeFile ≠ some [8364, 97] := by
  decide

/-- C1 (amended): for every non-empty text whose characters are all below
U+0800 (UTF-8 length at most 2 bytes) and whose length fits in `u32`,
encoding with `encode_file` and decoding the produced file with
`decode_file` yields exactly the original text. -/
theorem claimC1 (text : List Nat) (h1 : text ≠ []) (h2 : ∀ c ∈ text, c < 2048)
    (h3 : text.length < 2 ^ 32) : (encodeFile text).bind decodeFile = some text :=
  roundTrip text h1 h2 h3

theorem claimC1_witness :
    (([97, 98] : List Nat) ≠ [] ∧ (∀ c ∈ ([97, 98] : List Nat), c < 2048) ∧
      ([97, 98] : List Nat).length < 2 ^ 32) ∧
    (encodeFile [97, 98]).bind decodeFile = some [97, 98] :=
  ⟨by decide, claimC1 [97, 98] (by decide) (by decide) (by decide)⟩

/-- C2: for a frequency table with at least two distinct symbols, the code
table built from the Huffman tree is prefix-free: the codes of two distinct
symbols are never prefixes of one another. -/
theorem claimC2 (freq : List (Nat × Nat)) (t : HuffmanTree)
    (hnd : (freq.map Prod.fst).Nodup) (hlen : 2 ≤ freq.length)
    (ht : makeHuffmanTree freq = some t)
    (c1 c2 : Nat) (v1 v2 : List Bool) (hne : c1 ≠ c2)
    (hl1 : lookupCode (makeHuffmanMap t) c1 = some v1)
    (hl2 : lookupCode (makeHuffmanMap t) c2 = some v2) :
    ¬(v1 <+: v2) ∧ ¬(v2 <+: v1) := by
  have hfne : freq ≠ [] := by
    intro h
    rw [h] at hlen
    simp at hlen
  obtain ⟨t', ht', hperm⟩ := makeHuffmanTree_some freq hfne
  rw [ht] at ht'
  obtain rfl : t = t' := by injection ht'
  have hcnodup : (treeChars t).Nodup := hperm.nodup_iff.mpr hnd
  rw [makeHuffmanMap_eq_treePaths t hcnodup] at hl1 hl2
  have hm1 := mem_of_lookupCode_some _ c1 v1 hl1
  have hm2 := mem_of_lookupCode_some _ c2 v2 hl2
  have hnepair : (c1, v1) ≠ (c2, v2) := by
    intro h
    exact hne (congrArg Prod.fst h)
  exact treePaths_notPfx t hm1 hm2 hnepair

theorem claimC2_witness :
    ((([(97, 1), (98, 1)] : List (Nat × Nat)).map Prod.fst).Nodup ∧
      2 ≤ ([(97, 1), (98, 1)] : List (Nat × Nat)).length ∧
      makeHuffmanTree [(97, 1), (98, 1)] =
        some (HuffmanTree.Node (.Char 97) (.Char 98)) ∧
      (97 : Nat) ≠ 98 ∧
      lookupCode (makeHuffmanMap (HuffmanTree.Node (.Char 97) (.Char 98))) 97 =
        some [false] ∧
      lookupCode (makeHuffmanMap (HuffmanTree.Node (.Char 97) (.Char 98))) 98 =
        some [true]) ∧
    ¬([false] <+: [true]) ∧ ¬([true] <+: [false]) :=
  ⟨by decide, claimC2 [(97, 1), (98, 1)] (HuffmanTree.Node (.Char 97) (.Char 98))
    (by decide) (by decide) (by decide) 97 98 [false] [true]
    (by decide) (by decide) (by decide)⟩

/-- C3: on a file whose payload is corrupted so that the growing bit window
never matches a code, `decode_file` does not return an error value: it
panics (out-of-range slice `&code[start..start + length]`), modelled by
`none`.  The header of the failing file parses fine (first conjunct), so the
failure is in the scanning loop itself. -/
theorem claimC3_corruption_panics :
    parseTable 1 [[97, 32, 48], [128]] UMAX [] = some ([([false], 97)], 1, [[128]]) ∧
    decodeFile [49, 32, 49, 10, 97, 32, 48, 10, 128] = none := by
  decide

/-- C4: packing a bit sequence of aligned length into bytes (chunks of 8,
first bit most significant) and unpacking each byte with `byte_to_bit_vec`
restores the original bit sequence with no extra bits. -/
theorem claimC4 (bits : List Bool) (h : bits.length % 8 = 0) :
    bytesToBits (packBits bits) = bits :=
  unpack_pack bits h

theorem claimC4_witness :
    ([true, false, true, true, false, false, true, false] : List Bool).length % 8 = 0 ∧
    bytesToBits (packBits [true, false, true, true, false, false, true, false]) =
      [true, false, true, true, false, false, true, false] :=
  ⟨by decide, claimC4 _ (by decide)⟩

/-- C5: on the empty text `encode_file` neither returns `Ok` nor an error
value: `make_huffman_tree` panics (`heap.pop().unwrap()` on an empty heap),
modelled by `none`. -/
theorem claimC5_empty_panics : encodeFile [] = none := rfl

/-- C6: on malformed headers `decode_file` does not return a parse error:
it panics (`split_once(' ').unwrap()` when the first line has no space,
`parse::<u32>().unwrap()` when a count is non-numeric), modelled by `none`
for both failing inputs "abc" and "x y\n". -/
theorem claimC6_malformed_panics :
    decodeFile [97, 98, 99] = none ∧ decodeFile [120, 32, 121, 10] = none := by
  decide

/-- C7 (counterexample): a single euro sign (3-byte UTF-8) does not round
trip: `decode_file` panics at `split_at(2)` inside the character bytes. -/
theorem claimC7_cex :
    (encodeFile (List.replicate 1 8364)).bind decodeFile ≠
      some (List.replicate 1 8364) := by
  decide

/-- C7 (amended): for every character below U+0800 and every N with
1 ≤ N < 2^32, the text of N copies of the character round-trips through
`encode_file` and `decode_file`. -/
theorem claimC7 (c N : Nat) (h1 : c < 2048) (h2 : 1 ≤ N) (h3 : N < 2 ^ 32) :
    (encodeFile (List.replicate N c)).bind decodeFile =
      some (List.replicate N c) := by
  apply roundTrip
  · simp
    omega
  · intro x hx
    rw [List.eq_of_mem_replicate hx]
    exact h1
  · simp
    omega

theorem claimC7_witness :
    ((97 : Nat) < 2048 ∧ 1 ≤ 3 ∧ (3 : Nat) < 2 ^ 32) ∧
    (encodeFile (List.replicate 3 97)).bind decodeFile =
      some (List.replicate 3 97) :=
  ⟨by decide, claimC7 97 3 (by decide) (by decide) (by decide)⟩

/-- C8: the padding loop of `encode_file` always appends at least one bit:
8 − (L mod 8) zero bits when L mod 8 > 0 and a full byte of 8 zero bits when
L is already aligned, so the packed payload always has ⌊L/8⌋ + 1 bytes. -/
theorem claimC8 (bits : List Bool) :
    (padBits bits).length =
      bits.length + (if bits.length % 8 = 0 then 8 else 8 - bits.length % 8) ∧
    (packBits (padBits bits)).length = bits.length / 8 + 1 := by
  refine ⟨?_, packBits_padBits_length bits⟩
  rw [padBits_length]
  split
  · omega
  · rfl

/-- C9: a code-table entry for the newline symbol serializes as an empty
line followed by a line whose trimmed content is the code's bit string, and
the table-parsing loop of `decode_file` maps that bit string back to the
newline symbol, so the inverse code table is parsed correctly. -/
theorem claimC9 (m : List (Nat × List Bool)) (v : List Bool)
    (hmem : (10, v) ∈ m) (hsmall : ∀ e ∈ m, e.1 < 2048)
    (hnd : (m.map Prod.snd).Nodup) :
    splitOnByte (entryLine 10 v) = [[], 32 :: bitChars v] ∧
    trimBytes (32 :: bitChars v) = bitChars v ∧
    parseTable m.length (m.flatMap entryLines) UMAX [] =
      some (m.map fun e => (e.2, e.1), m.foldl (fun a e => min a e.2.length) UMAX, []) ∧
    lookupInv (m.map fun e => (e.2, e.1)) v = some 10 := by
  refine ⟨?_, trimBytes_cons_space _ (bitChars_no_ws v), ?_, ?_⟩
  · rw [splitOnByte_entryLine 10 v]
    simp [entryLines]
  · have := parseTable_spec m [] UMAX [] hsmall (by simp) hnd
    simpa using this
  · exact lookupInv_some_of_mem _ v 10
      (List.mem_map.mpr ⟨(10, v), hmem, rfl⟩)
      (by rw [List.map_map]; exact hnd)

theorem claimC9_witness :
    (((10 : Nat), [true]) ∈ ([(97, [false]), (10, [true])] : List (Nat × List Bool)) ∧
      (∀ e ∈ ([(97, [false]), (10, [true])] : List (Nat × List Bool)), e.1 < 2048) ∧
      (([(97, [false]), (10, [true])] : List (Nat × List Bool)).map Prod.snd).Nodup) ∧
    (splitOnByte (entryLine 10 [true]) = [[], 32 :: bitChars [true]] ∧
     trimBytes (32 :: bitChars [true]) = bitChars [true] ∧
     parseTable 2 (([(97, [false]), (10, [true])] :
        List (Nat × List Bool)).flatMap entryLines) UMAX [] =
       some ([([false], 97), ([true], 10)], 1, []) ∧
     lookupInv [([false], 97), ([true], 10)] [true] = some 10) :=
  ⟨by decide, claimC9 [(97, [false]), (10, [true])] [true]
    (by decide) (by decide) (by decide)⟩

/-- C10: a frequency table with exactly one distinct symbol yields a single
`Char` leaf from `make_huffman_tree`, and `make_huffman_map` assigns that
symbol the empty bit sequence (a zero-length code, not a one-bit code). -/
theorem claimC10 (c w : Nat) :
    makeHuffmanTree [(c, w)] = some (HuffmanTree.Char c) ∧
    makeHuffmanMap (HuffmanTree.Char c) = [(c, [])] :=
  ⟨rfl, rfl⟩

end Huffman
